import Mathlib

/-!
Verification of the fused cross-entropy kernel pair
(`src/annotated_examples/cross_entropy.py`).

The two Triton kernels `_cross_entropy_forward` and `_cross_entropy_backward`
are embedded as pure Lean functions over one row of the score matrix.  Device
floating-point values are modelled as extended reals with an explicit NaN:
the kernels deliberately load out-of-range block positions as `-inf`
(`tl.load(..., other = -float("inf"))`), feed them through the transform
pipeline (`LOGIT_SCALE * x`, `SOFTCAP * tanh(x / SOFTCAP)`), and reduce with
`max`, `exp`, `sum`, `log`, so the embedding must track how the IEEE special
values flow through those operations.  Finite arithmetic is exact real
arithmetic (rounding is abstracted away, as in the spec).
-/

namespace TritonCE

/-- A device scalar: `-inf`, `+inf`, `NaN`, or a finite real. -/
inductive FVal where
  | ninf : FVal
  | pinf : FVal
  | nan  : FVal
  | val  : ℝ → FVal

open FVal

/-- IEEE maximum of two device scalars (`tl.max` reduction step).
NaN never occurs at a reduction point in any theorem below, so the
propagation choice for NaN is immaterial. -/
def maxF : FVal → FVal → FVal
  | nan, _ => nan
  | _, nan => nan
  | pinf, _ => pinf
  | _, pinf => pinf
  | ninf, b => b
  | a, ninf => a
  | val a, val b => val (max a b)

/-- IEEE addition (`tl.sum` reduction step): `-inf + +inf = NaN`. -/
def addF : FVal → FVal → FVal
  | nan, _ => nan
  | _, nan => nan
  | ninf, pinf => nan
  | pinf, ninf => nan
  | pinf, _ => pinf
  | _, pinf => pinf
  | ninf, _ => ninf
  | _, ninf => ninf
  | val a, val b => val (a + b)

/-- IEEE subtraction: `inf - inf = NaN` (same sign). -/
def subF : FVal → FVal → FVal
  | nan, _ => nan
  | _, nan => nan
  | ninf, ninf => nan
  | pinf, pinf => nan
  | ninf, _ => ninf
  | pinf, _ => pinf
  | val _, ninf => pinf
  | val _, pinf => ninf
  | val a, val b => val (a - b)

/-- IEEE multiplication: `0 * inf = NaN`, sign rules for infinities. -/
noncomputable def mulF : FVal → FVal → FVal
  | nan, _ => nan
  | _, nan => nan
  | val a, val b => val (a * b)
  | val a, ninf => if 0 < a then ninf else if a < 0 then pinf else nan
  | val a, pinf => if 0 < a then pinf else if a < 0 then ninf else nan
  | ninf, val b => if 0 < b then ninf else if b < 0 then pinf else nan
  | pinf, val b => if 0 < b then pinf else if b < 0 then ninf else nan
  | ninf, ninf => pinf
  | ninf, pinf => ninf
  | pinf, ninf => ninf
  | pinf, pinf => pinf

/-- Division of a device scalar by a host real constant (only the shape
`x / SOFTCAP` occurs in the kernels). -/
noncomputable def divConstF : FVal → ℝ → FVal
  | nan, _ => nan
  | ninf, t => if 0 < t then ninf else if t < 0 then pinf else nan
  | pinf, t => if 0 < t then pinf else if t < 0 then ninf else nan
  | val x, t =>
      if t ≠ 0 then val (x / t)
      else if 0 < x then pinf else if x < 0 then ninf else nan

/-- IEEE `exp`: `exp(-inf) = 0`, `exp(+inf) = +inf`. -/
noncomputable def expF : FVal → FVal
  | nan => nan
  | ninf => val 0
  | pinf => pinf
  | val x => val (Real.exp x)

/-- IEEE `log`: `log 0 = -inf`, `log` of a negative value is NaN. -/
noncomputable def logF : FVal → FVal
  | nan => nan
  | ninf => nan
  | pinf => pinf
  | val x => if 0 < x then val (Real.log x) else if x = 0 then ninf else nan

/-- IEEE `tanh`: `tanh(-inf) = -1`, `tanh(+inf) = 1`. -/
noncomputable def tanhF : FVal → FVal
  | nan => nan
  | ninf => val (-1)
  | pinf => val 1
  | val x => val (Real.tanh x)

/-- The four transform parameters passed to both kernels. -/
structure KernelParams where
  DO_SOFTCAPPING : Bool
  SOFTCAP : ℝ
  DO_LOGIT_SCALING : Bool
  LOGIT_SCALE : ℝ

/-- How `Fast_CrossEntropyLoss.forward` derives the kernel parameters from the
host-level scalars: `DO_SOFTCAPPING = bool(logit_softcapping != 0)`,
`DO_LOGIT_SCALING = bool(logit_scaling != 0)`. -/
noncomputable def KernelParams.ofHost (logit_softcapping logit_scaling : ℝ) : KernelParams :=
  { DO_SOFTCAPPING := decide (logit_softcapping ≠ 0)
    SOFTCAP := logit_softcapping
    DO_LOGIT_SCALING := decide (logit_scaling ≠ 0)
    LOGIT_SCALE := logit_scaling }

/-- The masked block load shared by both kernels:
`tl.load(logits_ptr + col_offsets, mask = col_offsets < VOCAB_SIZE,
other = -float("inf"))` over `col_offsets = tl.arange(0, BLOCK_SIZE)`. -/
def loadBlock (row : List ℝ) (V B : ℕ) : List FVal :=
  ((row.take V).map val) ++ List.replicate (B - V) ninf

/-- The forward kernel's per-element transform pipeline, applied to the whole
block: `if DO_LOGIT_SCALING: logits = LOGIT_SCALE * logits` then
`if DO_SOFTCAPPING: logits = SOFTCAP * tanh(logits / SOFTCAP)`. -/
noncomputable def transforms (p : KernelParams) (v : FVal) : FVal :=
  let v1 := if p.DO_LOGIT_SCALING then mulF (val p.LOGIT_SCALE) v else v
  if p.DO_SOFTCAPPING then mulF (val p.SOFTCAP) (tanhF (divConstF v1 p.SOFTCAP)) else v1

/-- The same scalar transform pipeline on the (finite) logit loaded at the
label's column in the forward kernel: `x = LOGIT_SCALE * x` then
`x = SOFTCAP * tanh(x / SOFTCAP)`, in exact real arithmetic. -/
noncomputable def transformReal (p : KernelParams) (x : ℝ) : ℝ :=
  let x1 := if p.DO_LOGIT_SCALING then p.LOGIT_SCALE * x else x
  if p.DO_SOFTCAPPING then p.SOFTCAP * Real.tanh (x1 / p.SOFTCAP) else x1

/-- The log-sum-exp reduction of lines 115-119, on an already transformed
block: `c = tl.max(logits, 0)` (written out at each of its two uses), then
`logsumexp = c + log(sum(exp(logits - c), 0))`. -/
noncomputable def logsumexpOf (logits : List FVal) : FVal :=
  addF (logits.foldl maxF ninf)
    (logF ((logits.map (fun v => expF (subF v (logits.foldl maxF ninf)))).foldl addF (val 0)))

/-- Lines 92-119 of the forward kernel: masked load, transforms,
`c = tl.max(logits, 0)`, `logsumexp = c + log(sum(exp(logits - c), 0))`. -/
noncomputable def kernelLogsumexp (row : List ℝ) (V B : ℕ) (p : KernelParams) : FVal :=
  logsumexpOf ((loadBlock row V B).map (transforms p))

/-- The unguarded, unmasked label-column load
`x = tl.load(logits_ptr + label_idx)`, embedded fallibly: `none` models an
access outside the row's `VOCAB_SIZE` valid positions. -/
def loadLabelLogit (row : List ℝ) (label_idx : ℤ) (V : ℕ) : Option ℝ :=
  if h : 0 ≤ label_idx ∧ label_idx.toNat < V ∧ label_idx.toNat < row.length
  then some (row.get ⟨label_idx.toNat, h.2.2⟩) else none

/-- The forward kernel `_cross_entropy_forward` for one row.  Returns the
stored pair `(loss, logsumexp)`; `none` exactly when the unguarded label load
(taken only when `label_idx != -100`) is out of bounds. -/
noncomputable def _cross_entropy_forward (row : List ℝ) (label_idx : ℤ) (V B : ℕ)
    (p : KernelParams) : Option (FVal × FVal) :=
  if label_idx ≠ -100 then
    match loadLabelLogit row label_idx V with
    | none => none
    | some x => some (subF (kernelLogsumexp row V B p) (val (transformReal p x)),
        kernelLogsumexp row V B p)
  else
    some (val 0, kernelLogsumexp row V B p)

/-- Lines 198-237 of the backward kernel for block position `i` holding the
loaded value `xi`: `x = x * LOGIT_SCALE`; `tanh_term = x`,
`if DO_SOFTCAPPING: tanh_term = tanh(x / SOFTCAP); x = SOFTCAP * tanh_term`;
`y = exp(x - logsumexp)`; `y = where(col_offsets == label_idx, y - 1.0, y)`;
`if DO_LOGIT_SCALING: y = y * LOGIT_SCALE`;
`if DO_SOFTCAPPING: y = y * (1.0 - tanh_term*tanh_term)`. -/
noncomputable def backwardGradAt (p : KernelParams) (logsumexp : FVal) (label_idx : ℤ)
    (i : ℕ) (xi : FVal) : FVal :=
  let x1 := if p.DO_LOGIT_SCALING then mulF xi (val p.LOGIT_SCALE) else xi
  let tanh_term := if p.DO_SOFTCAPPING then tanhF (divConstF x1 p.SOFTCAP) else x1
  let x2 := if p.DO_SOFTCAPPING then mulF (val p.SOFTCAP) tanh_term else x1
  let y0 := expF (subF x2 logsumexp)
  let y1 := if (i : ℤ) = label_idx then subF y0 (val 1) else y0
  let y2 := if p.DO_LOGIT_SCALING then mulF y1 (val p.LOGIT_SCALE) else y1
  if p.DO_SOFTCAPPING then mulF y2 (subF (val 1) (mulF tanh_term tanh_term)) else y2

/-- The backward kernel `_cross_entropy_backward` for one row: the upstream
gradient is forced to `0.0` when `label_idx == -100`, and the result
`dloss * y` is stored back over the row with the mask
`col_offsets < VOCAB_SIZE` (positions not covered by the masked store keep
their previous contents).  The returned list is the row's memory (of length
`row.length`, the row stride) after the kernel runs. -/
noncomputable def _cross_entropy_backward (row : List ℝ) (dloss_in : ℝ) (label_idx : ℤ)
    (logsumexp : FVal) (V B : ℕ) (p : KernelParams) : List FVal :=
  let dloss : ℝ := if label_idx ≠ -100 then dloss_in else 0
  (List.range row.length).map (fun i =>
    if i < V ∧ i < B then
      mulF (val dloss) (backwardGradAt p logsumexp label_idx i (val (row.getD i 0)))
    else val (row.getD i 0))

/-- `MAX_FUSED_SIZE` from the source. -/
def MAX_FUSED_SIZE : ℕ := 65536

/-- `triton.next_power_of_2`: the smallest power of two that is `≥ n`. -/
def next_power_of_2 (n : ℕ) : ℕ := 2 ^ Nat.clog 2 n

/-- The launch configurator `calculate_settings`: block size is the next
power of two, a `RuntimeError` (the spec's `ConfigurationError`) is raised
when it exceeds `MAX_FUSED_SIZE`, and `num_warps` is a step function of the
block size. -/
def calculate_settings (n : ℕ) : Except String (ℕ × ℕ) :=
  if next_power_of_2 n > MAX_FUSED_SIZE then
    .error ("Cannot launch Triton kernel since n = " ++ toString n ++
      " exceeds the maximum CUDA blocksize = " ++ toString MAX_FUSED_SIZE ++ ".")
  else
    .ok (next_power_of_2 n,
      if next_power_of_2 n ≥ 32768 then 32
      else if next_power_of_2 n ≥ 8192 then 16
      else if next_power_of_2 n ≥ 2048 then 8
      else 4)

/-- The non-fused reference `reference_cross_entropy_loss` specialised to one
row with a valid label: scale (`logits * logit_scaling`), softcap
(`logit_softcapping * tanh(logits / logit_softcapping)`), then
`-log_softmax(logits)[label] = log(sum(exp(logits))) - logits[label]`. -/
noncomputable def reference_row_loss (logit_softcapping logit_scaling : ℝ)
    (logits : List ℝ) (label : ℕ) : ℝ :=
  let l1 := if logit_scaling ≠ 0 then logits.map (fun x => x * logit_scaling) else logits
  let l2 := if logit_softcapping ≠ 0 then
      l1.map (fun x => logit_softcapping * Real.tanh (x / logit_softcapping)) else l1
  Real.log ((l2.map Real.exp).sum) - l2.getD label 0

/-- Mathematical log-sum-exp of a list of reals (the value the reference
implementation's `log_softmax` normaliser takes). -/
noncomputable def realLogsumexp (l : List ℝ) : ℝ := Real.log ((l.map Real.exp).sum)

/-- The reference implementation's transform pipeline on one score
(scale as `x * logit_scaling`, then softcap). -/
noncomputable def refTransform (t s x : ℝ) : ℝ :=
  let x1 := if s ≠ 0 then x * s else x
  if t ≠ 0 then t * Real.tanh (x1 / t) else x1

/-- Derivative of `refTransform t s` at `x` (chain of scale and softcap). -/
noncomputable def refTransformDeriv (t s x : ℝ) : ℝ :=
  (if t ≠ 0 then 1 - Real.tanh ((if s ≠ 0 then x * s else x) / t) ^ 2 else 1) *
    (if s ≠ 0 then s else 1)

/-- Real-valued form of one backward-kernel gradient entry on finite inputs,
with the host parameter convention (`s ≠ 0` enables scaling, `t ≠ 0` enables
softcapping). -/
noncomputable def bgReal (t s L : ℝ) (lab : ℤ) (i : ℕ) (x : ℝ) : ℝ :=
  let x1 := if s ≠ 0 then x * s else x
  let th := if t ≠ 0 then Real.tanh (x1 / t) else x1
  let x2 := if t ≠ 0 then t * th else x1
  let y0 := Real.exp (x2 - L)
  let y1 := if (i : ℤ) = lab then y0 - 1 else y0
  let y2 := if s ≠ 0 then y1 * s else y1
  if t ≠ 0 then y2 * (1 - th * th) else y2

/-! ### Reduction lemmas for the device-scalar operations -/

@[simp] lemma maxF_val_val (a b : ℝ) : maxF (val a) (val b) = val (max a b) := rfl

@[simp] lemma maxF_ninf_val (a : ℝ) : maxF ninf (val a) = val a := rfl

@[simp] lemma maxF_val_ninf (a : ℝ) : maxF (val a) ninf = val a := rfl

@[simp] lemma maxF_val_pinf (a : ℝ) : maxF (val a) pinf = pinf := rfl

@[simp] lemma maxF_ninf_pinf : maxF ninf pinf = pinf := rfl

@[simp] lemma maxF_pinf_val (a : ℝ) : maxF pinf (val a) = pinf := rfl

@[simp] lemma addF_val_val (a b : ℝ) : addF (val a) (val b) = val (a + b) := rfl

@[simp] lemma addF_val_nan (a : ℝ) : addF (val a) nan = nan := rfl

@[simp] lemma addF_pinf_nan : addF pinf nan = nan := rfl

@[simp] lemma subF_val_val (a b : ℝ) : subF (val a) (val b) = val (a - b) := rfl

@[simp] lemma subF_ninf_val (a : ℝ) : subF ninf (val a) = ninf := rfl

@[simp] lemma subF_val_pinf (a : ℝ) : subF (val a) pinf = ninf := rfl

@[simp] lemma subF_pinf_pinf : subF pinf pinf = nan := rfl

@[simp] lemma mulF_val_val (a b : ℝ) : mulF (val a) (val b) = val (a * b) := rfl

@[simp] lemma mulF_val_nan (a : ℝ) : mulF (val a) nan = nan := rfl

lemma mulF_val_ninf_pos {a : ℝ} (h : 0 < a) : mulF (val a) ninf = ninf := by
  simp [mulF, h]

lemma mulF_val_ninf_neg {a : ℝ} (h : a < 0) : mulF (val a) ninf = pinf := by
  simp [mulF, h, asymm h]

@[simp] lemma expF_val (x : ℝ) : expF (val x) = val (Real.exp x) := rfl

@[simp] lemma expF_ninf : expF ninf = val 0 := rfl

@[simp] lemma expF_nan : expF nan = nan := rfl

@[simp] lemma tanhF_val (x : ℝ) : tanhF (val x) = val (Real.tanh x) := rfl

@[simp] lemma tanhF_ninf : tanhF ninf = val (-1) := rfl

@[simp] lemma logF_nan : logF nan = nan := rfl

lemma logF_val_pos {x : ℝ} (h : 0 < x) : logF (val x) = val (Real.log x) := by
  simp [logF, h]

lemma divConstF_val_ne {x t : ℝ} (h : t ≠ 0) : divConstF (val x) t = val (x / t) := by
  simp [divConstF, h]

lemma divConstF_ninf_pos {t : ℝ} (h : 0 < t) : divConstF ninf t = ninf := by
  simp [divConstF, h]

/-! ### Kernel parameter plumbing -/

@[simp] lemma ofHost_SOFTCAP (t s : ℝ) : (KernelParams.ofHost t s).SOFTCAP = t := rfl

@[simp] lemma ofHost_LOGIT_SCALE (t s : ℝ) : (KernelParams.ofHost t s).LOGIT_SCALE = s := rfl

lemma ofHost_soft_eq (t s : ℝ) :
    (KernelParams.ofHost t s).DO_SOFTCAPPING = decide (t ≠ 0) := rfl

lemma ofHost_scale_eq (t s : ℝ) :
    (KernelParams.ofHost t s).DO_LOGIT_SCALING = decide (s ≠ 0) := rfl

/-- The kernel transform pipeline on a finite scalar agrees with the scalar
transform used for the label logit. -/
lemma transforms_val (p : KernelParams) (hp : p.DO_SOFTCAPPING = true → p.SOFTCAP ≠ 0)
    (x : ℝ) : transforms p (val x) = val (transformReal p x) := by
  unfold transforms transformReal
  cases hsc : p.DO_SOFTCAPPING with
  | false => cases hls : p.DO_LOGIT_SCALING <;> simp [hsc, hls]
  | true => cases hls : p.DO_LOGIT_SCALING <;> simp [hsc, hls, divConstF_val_ne (hp hsc)]

/-- Kernel scalar transform versus the reference transform: they differ only
in the orientation of the scale multiplication. -/
lemma transformReal_ofHost (t s x : ℝ) :
    transformReal (KernelParams.ofHost t s) x = refTransform t s x := by
  unfold transformReal refTransform
  by_cases ht : t ≠ 0 <;> by_cases hs : s ≠ 0 <;>
    simp [KernelParams.ofHost, ht, hs, mul_comm]

/-- When softcapping is disabled and the scale factor is nonnegative, the
transform pipeline maps the `-inf` padding back to `-inf`. -/
lemma transforms_ofHost_ninf {t s : ℝ} (ht : t = 0) (hs : 0 ≤ s) :
    transforms (KernelParams.ofHost t s) ninf = ninf := by
  unfold transforms
  rcases eq_or_lt_of_le hs with hs0 | hs0
  · simp [KernelParams.ofHost, ht, hs0.symm]
  · simp [KernelParams.ofHost, ht, ne_of_gt hs0, mulF_val_ninf_pos hs0]

/-! ### Fold lemmas for the reductions -/

lemma foldl_maxF_vals (l : List ℝ) : ∀ a : ℝ,
    (l.map val).foldl maxF (val a) = val (l.foldl max a) := by
  induction l with
  | nil => intro a; rfl
  | cons x xs ih => intro a; simpa using ih (max a x)

lemma foldl_maxF_pad (k : ℕ) (a : ℝ) :
    (List.replicate k ninf).foldl maxF (val a) = val a := by
  induction k with
  | zero => rfl
  | succ n ih => simpa [List.replicate_succ] using ih

lemma foldl_addF_vals (l : List ℝ) : ∀ a : ℝ,
    (l.map val).foldl addF (val a) = val (a + l.sum) := by
  induction l with
  | nil => intro a; simp
  | cons x xs ih =>
    intro a
    simpa [add_assoc] using ih (a + x)

lemma foldl_addF_pad (k : ℕ) (a : ℝ) :
    (List.replicate k (val 0)).foldl addF (val a) = val a := by
  induction k with
  | zero => rfl
  | succ n ih => simpa [List.replicate_succ] using ih

lemma sum_exp_shift (l : List ℝ) (m : ℝ) :
    (l.map (fun x => Real.exp (x - m))).sum = Real.exp (-m) * (l.map Real.exp).sum := by
  induction l with
  | nil => simp
  | cons x xs ih =>
    simp only [List.map_cons, List.sum_cons]
    rw [ih, Real.exp_sub, Real.exp_neg]
    ring

lemma exp_sum_pos (l : List ℝ) (h : l ≠ []) : 0 < (l.map Real.exp).sum := by
  refine List.sum_pos _ (fun x hx => ?_) (by simpa using h)
  obtain ⟨y, -, rfl⟩ := List.mem_map.1 hx
  exact Real.exp_pos y

/-! ### List plumbing -/

lemma getD_map_of_lt {α β : Type} (f : α → β) (l : List α) (d : α) (d' : β) :
    ∀ i, i < l.length → (l.map f).getD i d' = f (l.getD i d) := by
  induction l with
  | nil => intro i h; simp at h
  | cons x xs ih =>
    intro i h
    cases i with
    | zero => rfl
    | succ n => simpa using ih n (by simpa using h)

lemma getD_take_of_lt {α : Type} (l : List α) (d : α) :
    ∀ V i, i < V → (l.take V).getD i d = l.getD i d := by
  induction l with
  | nil => intro V i _; simp
  | cons x xs ih =>
    intro V i h
    cases V with
    | zero => exact absurd h (Nat.not_lt_zero i)
    | succ m =>
      cases i with
      | zero => rfl
      | succ n => simpa using ih m n (Nat.lt_of_succ_lt_succ h)

lemma sum_set_of_lt (l : List ℝ) :
    ∀ i, i < l.length → ∀ a, (l.set i a).sum = l.sum - l.getD i 0 + a := by
  induction l with
  | nil => intro i h; simp at h
  | cons x xs ih =>
    intro i h a
    cases i with
    | zero => simp [List.set]; ring
    | succ n =>
      have hn : n < xs.length := by simpa using h
      simp only [List.set, List.sum_cons, ih n hn a, List.getD_cons_succ]
      ring

lemma getD_set_self_of_lt {α : Type} (l : List α) (d : α) :
    ∀ i, i < l.length → ∀ a, (l.set i a).getD i d = a := by
  induction l with
  | nil => intro i h; simp at h
  | cons x xs ih =>
    intro i h a
    cases i with
    | zero => rfl
    | succ n => simpa using ih n (by simpa using h) a

lemma getD_set_ne {α : Type} (l : List α) (d : α) :
    ∀ i j, i ≠ j → ∀ a, (l.set i a).getD j d = l.getD j d := by
  induction l with
  | nil => intro i j _ a; simp
  | cons x xs ih =>
    intro i j hij a
    cases i with
    | zero =>
      cases j with
      | zero => exact absurd rfl hij
      | succ m => rfl
    | succ n =>
      cases j with
      | zero => rfl
      | succ m => simpa using ih n m (fun h => hij (by rw [h])) a

/-! ### The log-sum-exp reduction on a block of finite scores plus padding -/

/-- On a block consisting of finite transformed scores followed by `-inf`
padding, the kernel reduction computes exactly the mathematical log-sum-exp
of the finite scores: the padding contributes `exp(-inf - c) = 0` to the sum
and is never the maximum. -/
lemma logsumexpOf_block (tr : List ℝ) (k : ℕ) (htr : tr ≠ []) :
    logsumexpOf (tr.map val ++ List.replicate k ninf) = val (realLogsumexp tr) := by
  obtain ⟨x, xs, rfl⟩ : ∃ x xs, tr = x :: xs := by
    cases tr with
    | nil => exact absurd rfl htr
    | cons x xs => exact ⟨x, xs, rfl⟩
  unfold logsumexpOf
  have hc : ((x :: xs).map val ++ List.replicate k ninf).foldl maxF ninf
      = val (xs.foldl max x) := by
    rw [List.foldl_append]
    have h1 : ((x :: xs).map val).foldl maxF ninf = val (xs.foldl max x) := by
      simp only [List.map_cons, List.foldl_cons, maxF_ninf_val]
      exact foldl_maxF_vals xs x
    rw [h1, foldl_maxF_pad]
  rw [hc]
  set m := xs.foldl max x with hm
  have hexps : ((x :: xs).map val ++ List.replicate k ninf).map
        (fun v => expF (subF v (val m)))
      = ((x :: xs).map (fun u => Real.exp (u - m))).map val ++ List.replicate k (val 0) := by
    rw [List.map_append, List.map_map, List.map_map, List.map_replicate]
    rfl
  rw [hexps, List.foldl_append, foldl_addF_vals, foldl_addF_pad]
  have hS : (0:ℝ) + ((x :: xs).map (fun u => Real.exp (u - m))).sum
      = Real.exp (-m) * ((x :: xs).map Real.exp).sum := by
    rw [zero_add, sum_exp_shift]
  rw [hS]
  have hpos0 : 0 < ((x :: xs).map Real.exp).sum :=
    exp_sum_pos _ (List.cons_ne_nil x xs)
  have hpos : 0 < Real.exp (-m) * ((x :: xs).map Real.exp).sum :=
    mul_pos (Real.exp_pos _) hpos0
  rw [logF_val_pos hpos, addF_val_val]
  unfold realLogsumexp
  congr 1
  rw [Real.log_mul (ne_of_gt (Real.exp_pos _)) (ne_of_gt hpos0), Real.log_exp]
  ring

/-- Under conditions making the padding inert (no padding at all, or
softcapping off and a nonnegative scale factor), the forward kernel's
log-sum-exp equals the mathematical log-sum-exp of the transformed scores. -/
lemma kernelLogsumexp_eq_val (row : List ℝ) (V B : ℕ) (t s : ℝ)
    (hV : 0 < V) (hlen : V ≤ row.length) (hok : B = V ∨ (t = 0 ∧ 0 ≤ s)) :
    kernelLogsumexp row V B (KernelParams.ofHost t s)
      = val (realLogsumexp ((row.take V).map (refTransform t s))) := by
  have hp : (KernelParams.ofHost t s).DO_SOFTCAPPING = true →
      (KernelParams.ofHost t s).SOFTCAP ≠ 0 := fun h => of_decide_eq_true h
  have hfun : (transforms (KernelParams.ofHost t s)) ∘ val
      = val ∘ (refTransform t s) := by
    funext x
    show transforms (KernelParams.ofHost t s) (val x) = val (refTransform t s x)
    rw [transforms_val _ hp, transformReal_ofHost]
  have hlogits : (loadBlock row V B).map (transforms (KernelParams.ofHost t s))
      = ((row.take V).map (refTransform t s)).map val ++ List.replicate (B - V) ninf := by
    unfold loadBlock
    rw [List.map_append, List.map_map, List.map_replicate, hfun, ← List.map_map]
    congr 1
    rcases hok with hBV | ⟨ht, hs⟩
    · rw [hBV, Nat.sub_self]
      rfl
    · rw [transforms_ofHost_ninf ht hs]
  have htr : (row.take V).map (refTransform t s) ≠ [] := by
    have : (row.take V).length = V := by
      rw [List.length_take]
      exact Nat.min_eq_left hlen
    intro hnil
    rw [List.map_eq_nil_iff] at hnil
    rw [hnil] at this
    simp at this
    omega
  unfold kernelLogsumexp
  rw [hlogits]
  exact logsumexpOf_block _ _ htr

/-! ### Derivative of the transform pipeline -/

/-- Derivative of `tanh`: `1 - tanh x ^ 2`, exactly the factor the backward
kernel multiplies in when softcapping is enabled. -/
lemma tanh_hasDerivAt (x : ℝ) : HasDerivAt Real.tanh (1 - Real.tanh x ^ 2) x := by
  have hcne : Real.cosh x ≠ 0 := ne_of_gt (Real.cosh_pos x)
  have h := (Real.hasDerivAt_sinh x).div (Real.hasDerivAt_cosh x) hcne
  have heq : (fun y => Real.sinh y / Real.cosh y) = Real.tanh :=
    funext fun y => (Real.tanh_eq_sinh_div_cosh y).symm
  rw [heq] at h
  have hval : 1 - Real.tanh x ^ 2
      = (Real.cosh x * Real.cosh x - Real.sinh x * Real.sinh x) / Real.cosh x ^ 2 := by
    rw [Real.tanh_eq_sinh_div_cosh]
    field_simp
    nlinarith [Real.cosh_sq_sub_sinh_sq x]
  rw [hval]
  exact h

/-- The reference transform pipeline is differentiable with derivative
`refTransformDeriv` (chain rule through scale then softcap), in each of the
four enable/disable configurations. -/
lemma refTransform_hasDerivAt (t s x : ℝ) :
    HasDerivAt (refTransform t s) (refTransformDeriv t s x) x := by
  by_cases hs : s ≠ 0 <;> by_cases ht : t ≠ 0
  · have hdiv : HasDerivAt (fun u : ℝ => u * s / t) (1 * s / t) x :=
      ((hasDerivAt_id x).mul_const s).div_const t
    have htanh := (tanh_hasDerivAt (x * s / t)).comp x hdiv
    have h := htanh.const_mul t
    have hfun : refTransform t s = fun u : ℝ => t * Real.tanh (u * s / t) := by
      funext u
      simp [refTransform, hs, ht]
    have hval : refTransformDeriv t s x
        = t * ((1 - Real.tanh (x * s / t) ^ 2) * (1 * s / t)) := by
      unfold refTransformDeriv
      rw [if_pos ht, if_pos hs, if_pos hs]
      field_simp
    rw [hfun, hval]
    exact h
  · have h := (hasDerivAt_id x).mul_const s
    have hfun : refTransform t s = fun u : ℝ => u * s := by
      funext u
      simp [refTransform, hs, ht]
    have hval : refTransformDeriv t s x = 1 * s := by
      unfold refTransformDeriv
      rw [if_neg ht, if_pos hs]
    rw [hfun, hval]
    exact h
  · have hdiv : HasDerivAt (fun u : ℝ => u / t) (1 / t) x :=
      (hasDerivAt_id x).div_const t
    have htanh := (tanh_hasDerivAt (x / t)).comp x hdiv
    have h := htanh.const_mul t
    have hfun : refTransform t s = fun u : ℝ => t * Real.tanh (u / t) := by
      funext u
      simp [refTransform, hs, ht]
    have hval : refTransformDeriv t s x = t * ((1 - Real.tanh (x / t) ^ 2) * (1 / t)) := by
      unfold refTransformDeriv
      rw [if_pos ht, if_neg hs, if_neg hs]
      field_simp
    rw [hfun, hval]
    exact h
  · have h := hasDerivAt_id x
    have hfun : refTransform t s = fun u : ℝ => u := by
      funext u
      simp [refTransform, hs, ht]
    have hval : refTransformDeriv t s x = 1 := by
      unfold refTransformDeriv
      rw [if_neg ht, if_neg hs]
      norm_num
    rw [hfun, hval]
    exact h

/-! ### Rewriting the reference loss through its transform pipeline -/

/-- The reference per-row loss in terms of a single mapped transform. -/
lemma reference_row_loss_eq (t s : ℝ) (l : List ℝ) (lab : ℕ) :
    reference_row_loss t s l lab
      = Real.log (((l.map (refTransform t s)).map Real.exp).sum)
        - (l.map (refTransform t s)).getD lab 0 := by
  unfold reference_row_loss refTransform
  by_cases hs : s ≠ 0 <;> by_cases ht : t ≠ 0 <;>
    simp [hs, ht, List.map_map, Function.comp_def]

/-- The reference loss as a function of the score at one column, with the sum
split into the constant part and the varying exponential. -/
lemma reference_row_loss_set (t s : ℝ) (l : List ℝ) (lab i : ℕ)
    (hi : i < l.length) (u : ℝ) :
    reference_row_loss t s (l.set i u) lab
      = Real.log ((((l.map (refTransform t s)).map Real.exp).sum
            - Real.exp ((l.map (refTransform t s)).getD i 0))
          + Real.exp (refTransform t s u))
        - (if i = lab then refTransform t s u
           else (l.map (refTransform t s)).getD lab 0) := by
  rw [reference_row_loss_eq, List.map_set, List.map_set]
  have hiM : i < ((l.map (refTransform t s)).map Real.exp).length := by simpa using hi
  rw [sum_set_of_lt _ i hiM]
  have hE : ((l.map (refTransform t s)).map Real.exp).getD i 0
      = Real.exp ((l.map (refTransform t s)).getD i 0) := by
    exact getD_map_of_lt Real.exp _ 0 0 i (by simpa using hi)
  rw [hE]
  congr 1
  by_cases hil : i = lab
  · subst hil
    rw [if_pos rfl]
    exact getD_set_self_of_lt _ 0 i (by simpa using hi) _
  · rw [if_neg hil]
    exact getD_set_ne _ 0 i lab hil _

/-- Removing one exponential from the sum leaves a nonnegative remainder. -/
lemma sum_exp_sub_getD_nonneg (M : List ℝ) (i : ℕ) (hi : i < M.length) :
    0 ≤ (M.map Real.exp).sum - Real.exp (M.getD i 0) := by
  have hset := sum_set_of_lt (M.map Real.exp) i (by simpa using hi) 0
  have hnn : 0 ≤ ((M.map Real.exp).set i 0).sum := by
    refine List.sum_nonneg (fun x hx => ?_)
    rcases List.mem_or_eq_of_mem_set hx with hx' | rfl
    · obtain ⟨y, -, rfl⟩ := List.mem_map.1 hx'
      exact (Real.exp_pos y).le
    · exact le_rfl
  have hE : (M.map Real.exp).getD i 0 = Real.exp (M.getD i 0) :=
    getD_map_of_lt Real.exp _ 0 0 i hi
  rw [hE] at hset
  linarith [hset, hnn]

/-- The analytic gradient of the reference per-row loss with respect to the
original (untransformed) score at column `i`:
`(softmax_i - [i = label]) * T'(x_i)`, with the softmax written as
`exp(transformed_i - logsumexp)`. -/
lemma reference_hasDerivAt (t s : ℝ) (l : List ℝ) (lab i : ℕ)
    (hi : i < l.length) (hlab : lab < l.length) :
    HasDerivAt (fun u => reference_row_loss t s (l.set i u) lab)
      ((Real.exp ((l.map (refTransform t s)).getD i 0
            - realLogsumexp (l.map (refTransform t s)))
          - (if i = lab then 1 else 0)) * refTransformDeriv t s (l.getD i 0))
      (l.getD i 0) := by
  have hlne : l ≠ [] := by
    intro h
    rw [h] at hi
    simp at hi
  set M := l.map (refTransform t s) with hM
  set x := l.getD i 0 with hx
  have hMi : M.getD i 0 = refTransform t s x := by
    rw [hM, hx]
    exact getD_map_of_lt _ _ 0 0 i hi
  have hSpos : 0 < (M.map Real.exp).sum := by
    apply exp_sum_pos
    rw [hM]
    simpa [List.map_eq_nil_iff] using hlne
  have hCnn : 0 ≤ (M.map Real.exp).sum - Real.exp (M.getD i 0) :=
    sum_exp_sub_getD_nonneg M i (by rw [hM]; simpa using hi)
  have hfun : (fun u => reference_row_loss t s (l.set i u) lab)
      = fun u => Real.log (((M.map Real.exp).sum - Real.exp (M.getD i 0))
            + Real.exp (refTransform t s u))
          - (if i = lab then refTransform t s u else M.getD lab 0) :=
    funext fun u => reference_row_loss_set t s l lab i hi u
  rw [hfun]
  have hT := refTransform_hasDerivAt t s x
  have h1 : HasDerivAt (fun u => ((M.map Real.exp).sum - Real.exp (M.getD i 0))
        + Real.exp (refTransform t s u))
      (Real.exp (refTransform t s x) * refTransformDeriv t s x) x :=
    (hT.exp).const_add _
  have hpos : 0 < ((M.map Real.exp).sum - Real.exp (M.getD i 0))
      + Real.exp (refTransform t s x) :=
    add_pos_of_nonneg_of_pos hCnn (Real.exp_pos _)
  have h2 := h1.log (ne_of_gt hpos)
  have hsum : ((M.map Real.exp).sum - Real.exp (M.getD i 0))
      + Real.exp (refTransform t s x) = (M.map Real.exp).sum := by
    rw [hMi]
    ring
  by_cases hil : i = lab
  · have h3 : HasDerivAt (fun u => (if i = lab then refTransform t s u else M.getD lab 0))
        (refTransformDeriv t s x) x := by
      simpa [hil] using hT
    have h := h2.sub h3
    convert h using 1
    rw [if_pos hil, hsum, hMi]
    unfold realLogsumexp
    rw [Real.exp_sub, Real.exp_log hSpos]
    field_simp [ne_of_gt hSpos]
    ring
  · have h3 : HasDerivAt (fun u => (if i = lab then refTransform t s u else M.getD lab 0))
        0 x := by
      simp only [if_neg hil]
      exact hasDerivAt_const x _
    have h := h2.sub h3
    convert h using 1
    rw [if_neg hil, hsum, hMi]
    unfold realLogsumexp
    rw [Real.exp_sub, Real.exp_log hSpos]
    field_simp [ne_of_gt hSpos]

/-! ### The backward kernel on finite inputs -/

/-- On finite inputs the backward per-entry pipeline computes `bgReal`. -/
lemma backwardGradAt_ofHost_val (t s L x : ℝ) (lab : ℤ) (i : ℕ) :
    backwardGradAt (KernelParams.ofHost t s) (val L) lab i (val x)
      = val (bgReal t s L lab i x) := by
  unfold backwardGradAt bgReal
  by_cases hs : s ≠ 0 <;> by_cases ht : t ≠ 0 <;> by_cases hil : (i : ℤ) = lab <;>
    simp [KernelParams.ofHost, hs, ht, hil, divConstF, mulF]

/-- One entry of the backward kernel output, inside the masked store. -/
lemma backward_getElem? (row : List ℝ) (dl : ℝ) (lab : ℤ) (lse : FVal) (V B : ℕ)
    (p : KernelParams) (i : ℕ) (hiV : i < V) (hiB : i < B) (hilen : i < row.length) :
    (_cross_entropy_backward row dl lab lse V B p)[i]?
      = some (mulF (val (if lab ≠ -100 then dl else 0))
          (backwardGradAt p lse lab i (val (row.getD i 0)))) := by
  unfold _cross_entropy_backward
  rw [List.getElem?_map, List.getElem?_range hilen]
  simp [hiV, hiB]

/-- One entry of the backward kernel output outside the masked store: the
memory keeps its previous contents. -/
lemma backward_getElem?_frame (row : List ℝ) (dl : ℝ) (lab : ℤ) (lse : FVal) (V B : ℕ)
    (p : KernelParams) (i : ℕ) (hiV : V ≤ i) (hilen : i < row.length) :
    (_cross_entropy_backward row dl lab lse V B p)[i]? = some (val (row.getD i 0)) := by
  unfold _cross_entropy_backward
  rw [List.getElem?_map, List.getElem?_range hilen]
  have hni : ¬ (i < V ∧ i < B) := by omega
  simp [hni]

/-! ### Forward kernel case analysis -/

/-- The forward kernel on a valid (in-bounds) label. -/
lemma forward_eq_valid (row : List ℝ) (V B : ℕ) (p : KernelParams) (lab : ℤ)
    (h0 : 0 ≤ lab) (hV : lab.toNat < V) (hlen : lab.toNat < row.length) :
    _cross_entropy_forward row lab V B p
      = some (subF (kernelLogsumexp row V B p)
          (val (transformReal p (row.getD lab.toNat 0))), kernelLogsumexp row V B p) := by
  have hne : lab ≠ -100 := by omega
  have hload : loadLabelLogit row lab V = some (row.getD lab.toNat 0) := by
    unfold loadLabelLogit
    rw [dif_pos ⟨h0, hV, hlen⟩, List.getD_eq_get row 0 hlen]
  unfold _cross_entropy_forward
  rw [if_pos hne, hload]

/-- The forward kernel on the ignore label `-100`. -/
lemma forward_ignored (row : List ℝ) (V B : ℕ) (p : KernelParams) :
    _cross_entropy_forward row (-100) V B p = some (val 0, kernelLogsumexp row V B p) := by
  unfold _cross_entropy_forward
  simp

/-! ### Launch configurator facts -/

lemma next_power_of_2_isLeast (n : ℕ) :
    IsLeast {w | n ≤ w ∧ ∃ k, w = 2 ^ k} (next_power_of_2 n) := by
  constructor
  · exact ⟨Nat.le_pow_clog one_lt_two n, ⟨_, rfl⟩⟩
  · rintro w ⟨hw, k, rfl⟩
    exact Nat.pow_le_pow_right (by norm_num) ((Nat.le_pow_iff_clog_le one_lt_two).1 hw)

lemma npot_eq (n : ℕ) : next_power_of_2 n = 2 ^ Nat.clog 2 n := rfl

lemma clog2_65536 : Nat.clog 2 65536 = 16 := by
  apply le_antisymm
  · exact (Nat.le_pow_iff_clog_le one_lt_two).1 (by norm_num)
  · exact (Nat.pow_lt_iff_lt_clog one_lt_two).1 (by norm_num)

lemma clog2_65537 : Nat.clog 2 65537 = 17 := by
  apply le_antisymm
  · exact (Nat.le_pow_iff_clog_le one_lt_two).1 (by norm_num)
  · exact (Nat.pow_lt_iff_lt_clog one_lt_two).1 (by norm_num)

lemma clog2_3 : Nat.clog 2 3 = 2 := by
  apply le_antisymm
  · exact (Nat.le_pow_iff_clog_le one_lt_two).1 (by norm_num)
  · exact (Nat.pow_lt_iff_lt_clog one_lt_two).1 (by norm_num)

/-- `logsumexpOf` on an all-finite block. -/
lemma logsumexpOf_vals (tr : List ℝ) (htr : tr ≠ []) :
    logsumexpOf (tr.map val) = val (realLogsumexp tr) := by
  have h := logsumexpOf_block tr 0 htr
  simpa using h

lemma next_power_of_2_3 : next_power_of_2 3 = 4 := by
  rw [npot_eq, clog2_3]
  norm_num

lemma realLogsumexp_triple_pad (b : ℝ) :
    realLogsumexp [0, 0, 0, b] = Real.log (3 + Real.exp b) := by
  unfold realLogsumexp
  congr 1
  simp [Real.exp_zero]
  ring

lemma realLogsumexp_triple_zero : realLogsumexp [(0:ℝ), 0, 0] = Real.log 3 := by
  unfold realLogsumexp
  congr 1
  simp [Real.exp_zero]
  norm_num

/-- Concrete evaluation shared by several results: with softcap `t = 1` on
the row `[0, 0, 0]` at launch width 4, the kernel's log-sum-exp picks up the
softcapped padding slot and equals `log(3 + e⁻¹)`. -/
lemma kernelLogsumexp_cap1_row000 :
    kernelLogsumexp [0, 0, 0] 3 4 (KernelParams.ofHost 1 0)
      = val (Real.log (3 + Real.exp (-1))) := by
  have hflagT : (KernelParams.ofHost (1:ℝ) 0).DO_SOFTCAPPING = true := by
    rw [ofHost_soft_eq]
    simp
  have hflagS : (KernelParams.ofHost (1:ℝ) 0).DO_LOGIT_SCALING = false := by
    rw [ofHost_scale_eq]
    simp
  have h0 : transforms (KernelParams.ofHost 1 0) (val 0) = val (1 * Real.tanh (0 / 1)) := by
    simp [transforms, hflagT, hflagS, divConstF_val_ne (one_ne_zero)]
  have hpad : transforms (KernelParams.ofHost 1 0) ninf = val (1 * -1) := by
    simp [transforms, hflagT, hflagS, divConstF_ninf_pos one_pos]
  have hblock : (loadBlock [0, 0, 0] 3 4).map (transforms (KernelParams.ofHost 1 0))
      = [(0:ℝ), 0, 0, -1].map val := by
    have hLB : loadBlock [(0:ℝ), 0, 0] 3 4 = [val 0, val 0, val 0, ninf] := rfl
    rw [hLB]
    simp only [List.map_cons, List.map_nil, h0, hpad]
    norm_num [Real.tanh_zero]
  unfold kernelLogsumexp
  rw [hblock, logsumexpOf_vals _ (by simp), realLogsumexp_triple_pad]

/-! ## Claim theorems -/

/-- Claim C4: for every positive `vocab_size` the launch configurator returns
the smallest power of two `≥ vocab_size` as the parallel width whenever that
width is at most 65536, and fails with a configuration error when the width
exceeds 65536; in particular `vocab_size = 65536` succeeds and
`vocab_size = 65537` fails. -/
theorem calculate_settings_spec (n : ℕ) (hn : 0 < n) :
    IsLeast {w | n ≤ w ∧ ∃ k, w = 2 ^ k} (next_power_of_2 n)
    ∧ (next_power_of_2 n ≤ 65536 →
        ∃ nw, calculate_settings n = Except.ok (next_power_of_2 n, nw))
    ∧ (65536 < next_power_of_2 n →
        ∃ msg, calculate_settings n = Except.error msg)
    ∧ calculate_settings 65536 = Except.ok (65536, 32)
    ∧ (∃ msg, calculate_settings 65537 = Except.error msg) := by
  refine ⟨next_power_of_2_isLeast n, ?_, ?_, ?_, ?_⟩
  · intro h
    unfold calculate_settings MAX_FUSED_SIZE
    rw [if_neg (by omega)]
    exact ⟨_, rfl⟩
  · intro h
    unfold calculate_settings MAX_FUSED_SIZE
    rw [if_pos (by omega)]
    exact ⟨_, rfl⟩
  · unfold calculate_settings MAX_FUSED_SIZE
    rw [npot_eq, clog2_65536, if_neg (by norm_num)]
    norm_num
  · unfold calculate_settings MAX_FUSED_SIZE
    rw [npot_eq, clog2_65537, if_pos (by norm_num)]
    exact ⟨_, rfl⟩

/-- Witness for C4 at the concrete vocabulary size 3. -/
theorem calculate_settings_spec_witness :
    (IsLeast {w | 3 ≤ w ∧ ∃ k, w = 2 ^ k} (next_power_of_2 3)
      ∧ (next_power_of_2 3 ≤ 65536 →
          ∃ nw, calculate_settings 3 = Except.ok (next_power_of_2 3, nw))
      ∧ (65536 < next_power_of_2 3 →
          ∃ msg, calculate_settings 3 = Except.error msg)
      ∧ calculate_settings 65536 = Except.ok (65536, 32)
      ∧ (∃ msg, calculate_settings 65537 = Except.error msg)) :=
  calculate_settings_spec 3 (by norm_num)

/-- Claim C5: a row whose label is `-100` stores loss exactly `0.0` while
still computing and storing the same log-sum-exp value as a run of the
kernel on that row with any valid label. -/
theorem forward_ignored_label_spec (row : List ℝ) (V B : ℕ) (p : KernelParams)
    (hlen : V ≤ row.length) :
    _cross_entropy_forward row (-100) V B p = some (val 0, kernelLogsumexp row V B p)
    ∧ ∀ lab : ℤ, 0 ≤ lab → lab.toNat < V →
        ∃ loss, _cross_entropy_forward row lab V B p
          = some (loss, kernelLogsumexp row V B p) := by
  refine ⟨forward_ignored row V B p, fun lab h0 hV => ?_⟩
  exact ⟨_, forward_eq_valid row V B p lab h0 hV (lt_of_lt_of_le hV hlen)⟩

/-- Witness for C5 on the row `[1, 2]`. -/
theorem forward_ignored_label_spec_witness :
    _cross_entropy_forward [1, 2] (-100) 2 2 (KernelParams.ofHost 0 0)
      = some (val 0, kernelLogsumexp [1, 2] 2 2 (KernelParams.ofHost 0 0))
    ∧ ∃ loss, _cross_entropy_forward [1, 2] 0 2 2 (KernelParams.ofHost 0 0)
        = some (loss, kernelLogsumexp [1, 2] 2 2 (KernelParams.ofHost 0 0)) :=
  ⟨(forward_ignored_label_spec [1, 2] 2 2 (KernelParams.ofHost 0 0) (by norm_num)).1,
    (forward_ignored_label_spec [1, 2] 2 2 (KernelParams.ofHost 0 0) (by norm_num)).2
      0 (by norm_num) (by norm_num)⟩

/-- Claim C6: for a row whose label is `-100` the backward kernel stores
`0.0` at every valid class position, and its full output is identical for
any two supplied upstream gradients: the supplied value has no influence. -/
theorem backward_ignored_label_spec (row : List ℝ) (V B : ℕ) (t s lse d1 d2 : ℝ)
    (i : ℕ) (hiV : i < V) (hiB : i < B) (hilen : i < row.length) :
    (_cross_entropy_backward row d1 (-100) (val lse) V B (KernelParams.ofHost t s))[i]?
      = some (val 0)
    ∧ _cross_entropy_backward row d1 (-100) (val lse) V B (KernelParams.ofHost t s)
      = _cross_entropy_backward row d2 (-100) (val lse) V B (KernelParams.ofHost t s) := by
  constructor
  · rw [backward_getElem? row d1 (-100) (val lse) V B _ i hiV hiB hilen,
      backwardGradAt_ofHost_val]
    simp
  · unfold _cross_entropy_backward
    simp

/-- Witness for C6 on the row `[1, 2]`. -/
theorem backward_ignored_label_spec_witness :
    (_cross_entropy_backward [1, 2] 5 (-100) (val 0) 2 2 (KernelParams.ofHost 0 0))[0]?
      = some (val 0)
    ∧ _cross_entropy_backward [1, 2] 5 (-100) (val 0) 2 2 (KernelParams.ofHost 0 0)
      = _cross_entropy_backward [1, 2] 7 (-100) (val 0) 2 2 (KernelParams.ofHost 0 0) :=
  backward_ignored_label_spec [1, 2] 2 2 0 0 0 5 7 0 (by norm_num) (by norm_num) (by norm_num)

/-- Claim C7: the backward kernel writes only columns `0..VOCAB_SIZE-1` of
the row; every position at column index `≥ VOCAB_SIZE` (the slack between
`VOCAB_SIZE` and the row stride included) keeps its previous contents and
the row length is unchanged.  The forward kernel's only stores are the
per-row loss and logsumexp scalars: in the embedding its result is exactly
that pair and the score row is read-only by construction. -/
theorem backward_frame_spec (row : List ℝ) (dl : ℝ) (lab : ℤ) (lse : FVal) (V B : ℕ)
    (p : KernelParams) :
    (_cross_entropy_backward row dl lab lse V B p).length = row.length
    ∧ ∀ i, V ≤ i → i < row.length →
        (_cross_entropy_backward row dl lab lse V B p)[i]? = some (val (row.getD i 0)) := by
  constructor
  · unfold _cross_entropy_backward
    simp
  · intro i hiV hilen
    exact backward_getElem?_frame row dl lab lse V B p i hiV hilen

/-- Witness for C7 on the row `[1, 2, 3]` with `VOCAB_SIZE = 2`: the slack
position 2 keeps its value. -/
theorem backward_frame_spec_witness :
    (_cross_entropy_backward [1, 2, 3] 5 0 (val 0) 2 2 (KernelParams.ofHost 0 0)).length = 3
    ∧ (_cross_entropy_backward [1, 2, 3] 5 0 (val 0) 2 2 (KernelParams.ofHost 0 0))[2]?
      = some (val 3) :=
  ⟨(backward_frame_spec [1, 2, 3] 5 0 (val 0) 2 2 (KernelParams.ofHost 0 0)).1,
    (backward_frame_spec [1, 2, 3] 5 0 (val 0) 2 2 (KernelParams.ofHost 0 0)).2
      2 (by norm_num) (by norm_num)⟩

/-- Claim C8: with softcap parameter `t > 0` enabled and scaling disabled,
the transformed score `t * tanh(x / t)` of any finite score `x` lies
strictly within `(-t, t)`. -/
theorem softcap_bounds_spec (t x : ℝ) (ht : 0 < t) :
    -t < transformReal (KernelParams.ofHost t 0) x
    ∧ transformReal (KernelParams.ofHost t 0) x < t := by
  have hT : transformReal (KernelParams.ofHost t 0) x = t * Real.tanh (x / t) := by
    simp [transformReal, KernelParams.ofHost, ht.ne']
  have h1 : Real.tanh (x / t) < 1 := by
    rw [Real.tanh_eq_sinh_div_cosh, div_lt_one (Real.cosh_pos _)]
    exact Real.sinh_lt_cosh _
  have h2 : -1 < Real.tanh (x / t) := by
    rw [Real.tanh_eq_sinh_div_cosh, lt_div_iff (Real.cosh_pos _)]
    nlinarith [Real.cosh_add_sinh (x / t), Real.exp_pos (x / t)]
  constructor
  · rw [hT]
    nlinarith
  · rw [hT]
    nlinarith

/-- Witness for C8 at `t = 1`, `x = 0`. -/
theorem softcap_bounds_spec_witness :
    -(1:ℝ) < transformReal (KernelParams.ofHost 1 0) 0
    ∧ transformReal (KernelParams.ofHost 1 0) 0 < 1 :=
  softcap_bounds_spec 1 0 (by norm_num)

/-- Claim C10: when every label is `-100` or a valid class index in
`[0, vocab_size)` (and the row holds at least `vocab_size` scores), the
forward kernel's unguarded label-column load stays within the row's valid
positions: the out-of-bounds (`none`) branch of the embedded load is
unreachable and the kernel always produces a result. -/
theorem forward_memory_safe_spec (row : List ℝ) (V B : ℕ) (p : KernelParams) (lab : ℤ)
    (hlab : lab = -100 ∨ (0 ≤ lab ∧ lab.toNat < V)) (hlen : V ≤ row.length) :
    (_cross_entropy_forward row lab V B p).isSome = true
    ∧ (lab ≠ -100 → (loadLabelLogit row lab V).isSome = true) := by
  rcases hlab with rfl | ⟨h0, hV⟩
  · refine ⟨?_, fun h => absurd rfl h⟩
    rw [forward_ignored]
    rfl
  · have hlen' : lab.toNat < row.length := lt_of_lt_of_le hV hlen
    refine ⟨?_, fun h => ?_⟩
    · rw [forward_eq_valid row V B p lab h0 hV hlen']
      rfl
    · unfold loadLabelLogit
      rw [dif_pos ⟨h0, hV, hlen'⟩]
      rfl

/-- Witness for C10 on the row `[1, 2]` with label 1. -/
theorem forward_memory_safe_spec_witness :
    (_cross_entropy_forward [1, 2] 1 2 2 (KernelParams.ofHost 0 0)).isSome = true
    ∧ ((1 : ℤ) ≠ -100 → (loadLabelLogit [1, 2] 1 2).isSome = true) :=
  forward_memory_safe_spec [1, 2] 2 2 (KernelParams.ofHost 0 0) 1
    (Or.inr ⟨by norm_num, by norm_num⟩) (by norm_num)

/-- Claim C1 (amended): for every row with a valid label, the forward kernel
stores `loss = logsumexp - transformed_label_score` with the label logit put
through the same scale-then-softcap pipeline as the rest of the row, and
this value equals the non-fused reference loss
`-log(softmax(transformed_scores))[label]` — provided the `-inf` padding is
inert: the parallel width equals `vocab_size`, or softcapping is disabled
and any enabled scale factor is nonnegative.  (Without that proviso the
claim fails; see the counterexample.) -/
theorem forward_loss_spec (row : List ℝ) (V B : ℕ) (t s : ℝ) (lab : ℕ)
    (hV : 0 < V) (hlen : V ≤ row.length) (hlab : lab < V)
    (hok : B = V ∨ (t = 0 ∧ 0 ≤ s)) :
    _cross_entropy_forward row lab V B (KernelParams.ofHost t s)
      = some (val (realLogsumexp ((row.take V).map (refTransform t s))
            - ((row.take V).map (refTransform t s)).getD lab 0),
          val (realLogsumexp ((row.take V).map (refTransform t s))))
    ∧ reference_row_loss t s (row.take V) lab
      = realLogsumexp ((row.take V).map (refTransform t s))
        - ((row.take V).map (refTransform t s)).getD lab 0 := by
  have hlen' : lab < row.length := lt_of_lt_of_le hlab hlen
  have h0 : (0:ℤ) ≤ (lab : ℤ) := Int.natCast_nonneg lab
  have hV' : ((lab : ℤ)).toNat < V := by simpa using hlab
  have hlen'' : ((lab : ℤ)).toNat < row.length := by simpa using hlen'
  have hget : ((row.take V).map (refTransform t s)).getD lab 0
      = refTransform t s (row.getD lab 0) := by
    rw [getD_map_of_lt (refTransform t s) _ 0 0 lab
        (by rw [List.length_take]; omega),
      getD_take_of_lt row 0 V lab hlab]
  constructor
  · rw [forward_eq_valid row V B _ (lab : ℤ) h0 hV' hlen'',
      kernelLogsumexp_eq_val row V B t s hV hlen hok]
    simp only [Int.toNat_natCast, subF_val_val, transformReal_ofHost, hget]
  · rw [reference_row_loss_eq]
    rfl

/-- Witness for C1 on the row `[0, 0]` with no transforms. -/
theorem forward_loss_spec_witness :
    (_cross_entropy_forward [0, 0] 0 2 2 (KernelParams.ofHost 0 0)
      = some (val (realLogsumexp (([0, 0].take 2).map (refTransform 0 0))
            - (([0, 0].take 2).map (refTransform 0 0)).getD 0 0),
          val (realLogsumexp (([0, 0].take 2).map (refTransform 0 0)))))
    ∧ reference_row_loss 0 0 ([0, 0].take 2) 0
      = realLogsumexp (([0, 0].take 2).map (refTransform 0 0))
        - (([0, 0].take 2).map (refTransform 0 0)).getD 0 0 :=
  forward_loss_spec [0, 0] 2 2 0 0 0 (by norm_num) (by norm_num) (by norm_num)
    (Or.inl rfl)

/-- Counterexample to claim C1 as stated: with softcapping `t = 1` on the
3-class row `[0, 0, 0]` and the actual launch width `next_power_of_2 3 = 4`,
the fused forward pass stores loss `log(3 + e⁻¹)` for label 0 — the `-inf`
padding slot is softcapped to `tanh(-inf) = -1` and leaks `e⁻¹` into the
exponential sum — while the non-fused reference loss is `log 3`. -/
theorem forward_loss_counterexample :
    next_power_of_2 3 = 4
    ∧ _cross_entropy_forward [0, 0, 0] 0 3 4 (KernelParams.ofHost 1 0)
      = some (val (Real.log (3 + Real.exp (-1))), val (Real.log (3 + Real.exp (-1))))
    ∧ reference_row_loss 1 0 [0, 0, 0] 0 = Real.log 3
    ∧ Real.log (3 + Real.exp (-1)) ≠ Real.log 3 := by
  have hflagT : (KernelParams.ofHost (1:ℝ) 0).DO_SOFTCAPPING = true := by
    rw [ofHost_soft_eq]
    simp
  have hflagS : (KernelParams.ofHost (1:ℝ) 0).DO_LOGIT_SCALING = false := by
    rw [ofHost_scale_eq]
    simp
  have hne : Real.log (3 + Real.exp (-1)) ≠ Real.log 3 := by
    have h3 : (0:ℝ) < 3 := by norm_num
    have hlt : (3:ℝ) < 3 + Real.exp (-1) := by nlinarith [Real.exp_pos (-1:ℝ)]
    exact (Real.log_lt_log h3 hlt).ne'
  have hlse := kernelLogsumexp_cap1_row000
  have hx : transformReal (KernelParams.ofHost 1 0) ([(0:ℝ), 0, 0].getD (0:ℤ).toNat 0) = 0 := by
    simp [transformReal, hflagT, hflagS, Real.tanh_zero]
  refine ⟨next_power_of_2_3, ?_, ?_, hne⟩
  · rw [forward_eq_valid [0, 0, 0] 3 4 _ 0 (by norm_num) (by norm_num) (by norm_num),
      hlse, hx]
    norm_num
  · rw [reference_row_loss_eq]
    have hmap : [(0:ℝ), 0, 0].map (refTransform 1 0) = [0, 0, 0] := by
      simp [refTransform, Real.tanh_zero]
    rw [hmap]
    show realLogsumexp [(0:ℝ), 0, 0] - _ = _
    rw [realLogsumexp_triple_zero]
    norm_num

/-- Claim C3 exhibit (code bug): with softcapping `t = 2` on the 3-class row
`[0, 0, 0]` and the actual launch width 4, the kernel's log-sum-exp is
`log(3 + e⁻²)`, not the log-sum-exp `log 3` of the three real transformed
scores: the masked position is softcapped from `-inf` to the finite value
`-2` and contributes `exp(-2 - c) > 0` to the reduction, contradicting the
code's own comment that masked positions "don't contribute to the sum
(exp(-infinity) = 0)". -/
theorem padding_contribution_bug :
    next_power_of_2 3 = 4
    ∧ kernelLogsumexp [0, 0, 0] 3 4 (KernelParams.ofHost 2 0)
      = val (Real.log (3 + Real.exp (-2)))
    ∧ realLogsumexp ([0, 0, 0].map (transformReal (KernelParams.ofHost 2 0))) = Real.log 3
    ∧ Real.log (3 + Real.exp (-2)) ≠ Real.log 3 := by
  have hflagT : (KernelParams.ofHost (2:ℝ) 0).DO_SOFTCAPPING = true := by
    rw [ofHost_soft_eq]
    simp
  have hflagS : (KernelParams.ofHost (2:ℝ) 0).DO_LOGIT_SCALING = false := by
    rw [ofHost_scale_eq]
    simp
  have h0 : transforms (KernelParams.ofHost 2 0) (val 0) = val (2 * Real.tanh (0 / 2)) := by
    simp [transforms, hflagT, hflagS, divConstF_val_ne (two_ne_zero)]
  have hpad : transforms (KernelParams.ofHost 2 0) ninf = val (2 * -1) := by
    simp [transforms, hflagT, hflagS, divConstF_ninf_pos two_pos]
  have hblock : (loadBlock [0, 0, 0] 3 4).map (transforms (KernelParams.ofHost 2 0))
      = [(0:ℝ), 0, 0, -2].map val := by
    have hLB : loadBlock [(0:ℝ), 0, 0] 3 4 = [val 0, val 0, val 0, ninf] := rfl
    rw [hLB]
    simp only [List.map_cons, List.map_nil, h0, hpad]
    norm_num [Real.tanh_zero]
  refine ⟨next_power_of_2_3, ?_, ?_, ?_⟩
  · unfold kernelLogsumexp
    rw [hblock, logsumexpOf_vals _ (by simp), realLogsumexp_triple_pad]
  · have hmap : [(0:ℝ), 0, 0].map (transformReal (KernelParams.ofHost 2 0)) = [0, 0, 0] := by
      simp [transformReal, hflagT, hflagS, Real.tanh_zero]
    rw [hmap, realLogsumexp_triple_zero]
  · have h3 : (0:ℝ) < 3 := by norm_num
    have hlt : (3:ℝ) < 3 + Real.exp (-2) := by nlinarith [Real.exp_pos (-2:ℝ)]
    exact (Real.log_lt_log h3 hlt).ne'

/-- Claim C9 (amended): with scaling enabled by a factor `s ≠ 0` that is
positive — or with no block padding (`B = V`), where any `s ≠ 0` works —
the fused forward loss for a valid label equals an ordinary untransformed
log-softmax cross-entropy computed after multiplying every score by `s`.
(For `s < 0` with padding the claim fails; see the counterexample.) -/
theorem scale_only_equivalence (row : List ℝ) (V B : ℕ) (s : ℝ) (lab : ℕ)
    (hV : 0 < V) (hlen : V ≤ row.length) (hlab : lab < V) (hs : s ≠ 0)
    (hok : 0 < s ∨ B = V) :
    (_cross_entropy_forward row lab V B (KernelParams.ofHost 0 s)).map Prod.fst
      = some (val (reference_row_loss 0 0 ((row.take V).map (fun x => x * s)) lab)) := by
  have h0 : (0:ℤ) ≤ (lab : ℤ) := Int.natCast_nonneg lab
  have hV' : ((lab : ℤ)).toNat < V := by simpa using hlab
  have hlen'' : ((lab : ℤ)).toNat < row.length := by
    simpa using lt_of_lt_of_le hlab hlen
  have hok' : B = V ∨ ((0:ℝ) = 0 ∧ 0 ≤ s) := by
    rcases hok with hpos | hBV
    · exact Or.inr ⟨rfl, le_of_lt hpos⟩
    · exact Or.inl hBV
  have hmap : (row.take V).map (refTransform 0 s) = (row.take V).map (fun x => x * s) := by
    have : refTransform 0 s = fun x => x * s := by
      funext x
      simp [refTransform, hs]
    rw [this]
  have hmap0 : ((row.take V).map (fun x => x * s)).map (refTransform 0 0)
      = (row.take V).map (fun x => x * s) := by
    have hid : refTransform 0 0 = @id ℝ := by
      funext x
      simp [refTransform]
    rw [hid, List.map_id]
  have hgd : ((row.take V).map (fun x => x * s)).getD lab 0 = row.getD lab 0 * s := by
    rw [getD_map_of_lt (fun x => x * s) _ 0 0 lab (by rw [List.length_take]; omega),
      getD_take_of_lt row 0 V lab hlab]
  have hx : transformReal (KernelParams.ofHost 0 s) (row.getD lab 0)
      = row.getD lab 0 * s := by
    rw [transformReal_ofHost]
    simp [refTransform, hs]
  rw [forward_eq_valid row V B _ (lab : ℤ) h0 hV' hlen'',
    kernelLogsumexp_eq_val row V B 0 s hV hlen hok', hmap,
    reference_row_loss_eq, hmap0, hgd]
  simp only [Int.toNat_natCast, subF_val_val, hx]
  rfl

/-- Witness for C9 on the row `[0, 0]` with `s = 2` and no padding. -/
theorem scale_only_equivalence_witness :
    (_cross_entropy_forward [0, 0] 0 2 2 (KernelParams.ofHost 0 2)).map Prod.fst
      = some (val (reference_row_loss 0 0 (([0, 0].take 2).map (fun x => x * 2)) 0)) :=
  scale_only_equivalence [0, 0] 2 2 2 0 (by norm_num) (by norm_num) (by norm_num)
    (by norm_num) (Or.inl (by norm_num))

/-- Counterexample to claim C9 as stated (`s ≠ 0` alone does not suffice):
with `s = -1` and the actual launch width `next_power_of_2 3 = 4`, the
`-inf` padding slot is scaled to `+inf`, the row maximum becomes `+inf`,
`exp(+inf - +inf) = NaN` poisons the sum, and the stored loss is NaN rather
than the reference loss `log 3` of the negated scores. -/
theorem scale_only_counterexample :
    next_power_of_2 3 = 4
    ∧ _cross_entropy_forward [0, 0, 0] 0 3 4 (KernelParams.ofHost 0 (-1))
      = some (nan, nan)
    ∧ reference_row_loss 0 (-1) [0, 0, 0] 0 = Real.log 3
    ∧ (nan : FVal) ≠ val (Real.log 3) := by
  have hflagT : (KernelParams.ofHost (0:ℝ) (-1)).DO_SOFTCAPPING = false := by
    rw [ofHost_soft_eq]
    simp
  have hflagS : (KernelParams.ofHost (0:ℝ) (-1)).DO_LOGIT_SCALING = true := by
    rw [ofHost_scale_eq]
    simp
  have h0 : transforms (KernelParams.ofHost 0 (-1)) (val 0) = val ((-1) * 0) := by
    simp [transforms, hflagT, hflagS]
  have hpad : transforms (KernelParams.ofHost 0 (-1)) ninf = pinf := by
    simp only [transforms, hflagT, hflagS, if_true, if_false, Bool.false_eq_true,
      ofHost_LOGIT_SCALE]
    rw [mulF_val_ninf_neg (by norm_num)]
  have hblock : (loadBlock [0, 0, 0] 3 4).map (transforms (KernelParams.ofHost 0 (-1)))
      = [val ((-1) * 0), val ((-1) * 0), val ((-1) * 0), pinf] := by
    have hLB : loadBlock [(0:ℝ), 0, 0] 3 4 = [val 0, val 0, val 0, ninf] := rfl
    rw [hLB]
    simp only [List.map_cons, List.map_nil, h0, hpad]
  have hlse : kernelLogsumexp [0, 0, 0] 3 4 (KernelParams.ofHost 0 (-1)) = nan := by
    unfold kernelLogsumexp
    rw [hblock]
    rfl
  refine ⟨next_power_of_2_3, ?_, ?_, fun h => FVal.noConfusion h⟩
  · rw [forward_eq_valid [0, 0, 0] 3 4 _ 0 (by norm_num) (by norm_num) (by norm_num), hlse]
    rfl
  · rw [reference_row_loss_eq]
    have hmap : [(0:ℝ), 0, 0].map (refTransform 0 (-1)) = [0, 0, 0] := by
      simp [refTransform]
    rw [hmap]
    show realLogsumexp [(0:ℝ), 0, 0] - _ = _
    rw [realLogsumexp_triple_zero]
    norm_num

/-- The backward per-entry value on finite inputs, rewritten as
`(softmax_i - [i = label]) * T'(x_i)` with `softmax_i` in its
`exp(transformed - logsumexp)` form. -/
lemma bgReal_eq_deriv (t s L x : ℝ) (labz : ℤ) (i : ℕ) :
    bgReal t s L labz i x
      = (Real.exp (refTransform t s x - L) - (if (i : ℤ) = labz then 1 else 0))
        * refTransformDeriv t s x := by
  unfold bgReal refTransform refTransformDeriv
  by_cases hs : s ≠ 0 <;> by_cases ht : t ≠ 0 <;> by_cases hil : (i : ℤ) = labz <;>
    simp [hs, ht, hil] <;> (try ring) <;> tauto

/-- Claim C2 (amended): for a row with a valid label, when the `-inf`
padding is inert (parallel width equal to `vocab_size`, or softcap disabled
and any enabled scale nonnegative), the backward kernel — run against the
log-sum-exp value the forward kernel persisted — stores at every class
`i < vocab_size` exactly `upstream_grad * g_i` with
`g_i = (exp(transformed_i - logsumexp) - [i = label]) * T'(x_i)`, and this
`g_i` is the analytic derivative of the reference per-row loss with respect
to the original score at column `i`.  (Without the proviso the persisted
logsumexp is polluted by the padding and the stored value is not the
analytic gradient; see the counterexample.) -/
theorem backward_grad_spec (row : List ℝ) (V B : ℕ) (t s dl : ℝ) (lab i : ℕ)
    (hV : 0 < V) (hlen : V ≤ row.length) (hVB : V ≤ B) (hlab : lab < V) (hi : i < V)
    (hok : B = V ∨ (t = 0 ∧ 0 ≤ s)) :
    kernelLogsumexp row V B (KernelParams.ofHost t s)
      = val (realLogsumexp ((row.take V).map (refTransform t s)))
    ∧ (_cross_entropy_backward row dl lab
          (val (realLogsumexp ((row.take V).map (refTransform t s)))) V B
          (KernelParams.ofHost t s))[i]?
      = some (val (dl * ((Real.exp (((row.take V).map (refTransform t s)).getD i 0
              - realLogsumexp ((row.take V).map (refTransform t s)))
            - (if i = lab then 1 else 0))
          * refTransformDeriv t s (row.getD i 0))))
    ∧ HasDerivAt (fun u => reference_row_loss t s ((row.take V).set i u) lab)
        ((Real.exp (((row.take V).map (refTransform t s)).getD i 0
            - realLogsumexp ((row.take V).map (refTransform t s)))
          - (if i = lab then 1 else 0)) * refTransformDeriv t s (row.getD i 0))
        (row.getD i 0) := by
  have hilen : i < row.length := lt_of_lt_of_le hi hlen
  have hiT : i < (row.take V).length := by
    rw [List.length_take]
    omega
  have hlabT : lab < (row.take V).length := by
    rw [List.length_take]
    omega
  have hgdi : (row.take V).getD i 0 = row.getD i 0 := getD_take_of_lt row 0 V i hi
  have hgmap : ((row.take V).map (refTransform t s)).getD i 0
      = refTransform t s (row.getD i 0) := by
    rw [getD_map_of_lt (refTransform t s) _ 0 0 i hiT, hgdi]
  refine ⟨kernelLogsumexp_eq_val row V B t s hV hlen hok, ?_, ?_⟩
  · rw [backward_getElem? row dl (lab : ℤ) _ V B _ i hi (lt_of_lt_of_le hi hVB) hilen]
    have hlabne : ((lab : ℤ)) ≠ -100 := by omega
    rw [if_pos hlabne, backwardGradAt_ofHost_val, mulF_val_val, bgReal_eq_deriv, hgmap]
    have hcast : (if (i : ℤ) = (lab : ℤ) then (1:ℝ) else 0) = if i = lab then 1 else 0 := by
      simp [Nat.cast_inj]
    rw [hcast]
  · have h := reference_hasDerivAt t s (row.take V) lab i hiT hlabT
    rw [hgdi] at h
    exact h

/-- Witness for C2 on the row `[0, 0]` with no transforms, label 0,
gradient position 1. -/
theorem backward_grad_spec_witness :
    kernelLogsumexp [0, 0] 2 2 (KernelParams.ofHost 0 0)
      = val (realLogsumexp (([0, 0].take 2).map (refTransform 0 0)))
    ∧ (_cross_entropy_backward [0, 0] 1 0
          (val (realLogsumexp (([0, 0].take 2).map (refTransform 0 0)))) 2 2
          (KernelParams.ofHost 0 0))[1]?
      = some (val (1 * ((Real.exp ((([0, 0].take 2).map (refTransform 0 0)).getD 1 0
              - realLogsumexp (([0, 0].take 2).map (refTransform 0 0)))
            - (if 1 = 0 then 1 else 0))
          * refTransformDeriv 0 0 ([0, 0].getD 1 0))))
    ∧ HasDerivAt (fun u => reference_row_loss 0 0 (([0, 0].take 2).set 1 u) 0)
        ((Real.exp ((([0, 0].take 2).map (refTransform 0 0)).getD 1 0
            - realLogsumexp (([0, 0].take 2).map (refTransform 0 0)))
          - (if 1 = 0 then 1 else 0)) * refTransformDeriv 0 0 ([0, 0].getD 1 0))
        ([0, 0].getD 1 0) :=
  backward_grad_spec [0, 0] 2 2 0 0 1 0 1 (by norm_num) (by norm_num) (by norm_num)
    (by norm_num) (by norm_num) (Or.inl rfl)

/-- Counterexample to claim C2 as stated: with softcap `t = 1` on the row
`[0, 0, 0]`, label 0, upstream gradient 1 and the actual launch width 4,
the backward kernel (run against the logsumexp `log(3 + e⁻¹)` that the
forward kernel persisted) stores `(3 + e⁻¹)⁻¹` at class 1, but the analytic
derivative of the reference loss in that coordinate is `3⁻¹`: the stored
value is not the gradient of the reference loss. -/
theorem backward_grad_counterexample :
    next_power_of_2 3 = 4
    ∧ kernelLogsumexp [0, 0, 0] 3 4 (KernelParams.ofHost 1 0)
      = val (Real.log (3 + Real.exp (-1)))
    ∧ (_cross_entropy_backward [0, 0, 0] 1 0 (val (Real.log (3 + Real.exp (-1)))) 3 4
          (KernelParams.ofHost 1 0))[1]?
      = some (val ((3 + Real.exp (-1))⁻¹))
    ∧ HasDerivAt (fun u => reference_row_loss 1 0 ([0, 0, 0].set 1 u) 0) (3⁻¹ : ℝ) 0
    ∧ ¬ HasDerivAt (fun u => reference_row_loss 1 0 ([0, 0, 0].set 1 u) 0)
        ((3 + Real.exp (-1))⁻¹ : ℝ) 0
    ∧ ((3 + Real.exp (-1))⁻¹ : ℝ) ≠ 3⁻¹ := by
  have hpos : (0:ℝ) < 3 + Real.exp (-1) := by positivity
  have hne : ((3 + Real.exp (-1))⁻¹ : ℝ) ≠ 3⁻¹ := by
    intro h
    have h3 : (3:ℝ) < 3 + Real.exp (-1) := by nlinarith [Real.exp_pos (-1:ℝ)]
    have := inv_injective h
    linarith
  have hD : HasDerivAt (fun u => reference_row_loss 1 0 ([0, 0, 0].set 1 u) 0)
      (3⁻¹ : ℝ) 0 := by
    have h := reference_hasDerivAt 1 0 [0, 0, 0] 0 1 (by norm_num) (by norm_num)
    have hmapM : [(0:ℝ), 0, 0].map (refTransform 1 0) = [0, 0, 0] := by
      simp [refTransform, Real.tanh_zero]
    rw [hmapM, realLogsumexp_triple_zero] at h
    have hval : (Real.exp (([(0:ℝ), 0, 0].getD 1 0) - Real.log 3)
          - (if (1:ℕ) = 0 then (1:ℝ) else 0))
        * refTransformDeriv 1 0 ([(0:ℝ), 0, 0].getD 1 0) = (3⁻¹ : ℝ) := by
      have hgd : [(0:ℝ), 0, 0].getD 1 0 = 0 := rfl
      rw [hgd]
      have hder : refTransformDeriv 1 0 (0:ℝ) = 1 := by
        simp [refTransformDeriv, Real.tanh_zero]
      rw [hder]
      rw [zero_sub, Real.exp_neg, Real.exp_log (by norm_num)]
      norm_num
    rw [hval] at h
    exact h
  refine ⟨next_power_of_2_3, kernelLogsumexp_cap1_row000, ?_, hD, ?_, hne⟩
  · rw [backward_getElem? [0, 0, 0] 1 0 (val (Real.log (3 + Real.exp (-1)))) 3 4
        (KernelParams.ofHost 1 0) 1 (by norm_num) (by norm_num) (by norm_num)]
    rw [if_pos (by decide : (0:ℤ) ≠ -100), backwardGradAt_ofHost_val, mulF_val_val]
    have hgd : [(0:ℝ), 0, 0].getD 1 0 = 0 := rfl
    rw [hgd, bgReal_eq_deriv]
    have hT : refTransform 1 0 (0:ℝ) = 0 := by
      simp [refTransform, Real.tanh_zero]
    have hder : refTransformDeriv 1 0 (0:ℝ) = 1 := by
      simp [refTransformDeriv, Real.tanh_zero]
    rw [hT, hder]
    have hite : (if ((1:ℕ) : ℤ) = (0:ℤ) then (1:ℝ) else 0) = 0 := by norm_num
    rw [hite]
    rw [zero_sub, Real.exp_neg, Real.exp_log hpos]
    norm_num
  · intro h
    exact hne (h.unique hD)

end TritonCE
